import Mathlib

/-!
# Verification of the mobx-ui-statelets orchestration core

This file gives a shallow embedding, in Lean 4, of the orchestration core of
the `mobx-ui-statelets` library (Task, Input, Validator, Form, and the
nested-validator graph traversal), and proves or refutes the frozen claims
about it.

Each namespace embeds one source component:

* `ValidatorModel` — the `Validator` getters of `src/state/Validator.ts`
  (`parse`, `domainResult`, `error`, `correction`, `isConclusive`,
  `isConclusivelyValid`, `isConclusivelyInvalid`).
* `Task011` — the `Task` variant with `reinvoke` and `_lastArg`.
* `FormModel` — the derived getters of `Form` (`inputErrors`,
  `unconfirmedInputs`, `nextInput`) and the `guardSubmit` wrapper.
* `TaskCore` — the cancelable `Task` state machine of `src/state/Task.ts`
  as an event-trace transition system (invoke / cancel / race continuation).
* `InputConfirm` — the `Input.confirm` cascade and `Input.validate` sweep of
  `src/state/Input.ts`, for synchronous domain validators.
* `NestedModel` — `Validator.nestedValidators` / `collectNestedValidators`
  over the input↔validator bipartite graph.

Machine values (input values, domain values) are modelled as members of
arbitrary types with decidable equality; `undefined` is modelled as `none` of
an `Option` where the source uses `void 0` as a sentinel.
-/

namespace ValidatorModel

/-- Output of a user parse rule, as in `ValidatorOptions.parse`:
a falsy value (success, passthrough), an explicit `{domain}` conversion,
or an `{error, correction?}` failure. -/
inductive RuleOut (IV DV PE : Type) where
  | falsy : RuleOut IV DV PE
  | domain (d : DV) : RuleOut IV DV PE
  | failure (e : PE) (corr : Option IV) : RuleOut IV DV PE

/-- `ParseResult` of `Validator.parse`: success carries `isParsed`
(whether the rule returned an explicit domain conversion) and the domain
value; failure carries the parse error and optional correction. -/
inductive ParseResult (IV DV PE : Type) where
  | success (isParsed : Bool) (domain : DV) : ParseResult IV DV PE
  | failure (e : PE) (corr : Option IV) : ParseResult IV DV PE

/-- `Validator.parse`: `rule = options.parse || noopValidator`;
falsy result means success with the input value passed through as domain
value (the source performs an unchecked cast there, modelled by `coe`). -/
def parse (IV DV PE : Type) (coe : IV → DV) (rule : Option (IV → RuleOut IV DV PE))
    (value : IV) : ParseResult IV DV PE :=
  match rule with
  | none => ParseResult.success false (coe value)
  | some r =>
    match r value with
    | RuleOut.falsy => ParseResult.success false (coe value)
    | RuleOut.domain d => ParseResult.success true d
    | RuleOut.failure e c => ParseResult.failure e c

/-- The state a `Validator`'s getters read from: its options (parse rule,
formatter, enabled predicate result), the composite confirmed value of its
inputs, the per-input confirmed flags, and its internal domain `Task`'s
state (`isPending`, `result`). The domain task result is
`none` (never completed), `some none` (falsy result: success), or
`some (some (e, corr))` (a `ValidationFailure`). -/
structure VState (IV DV PE DE : Type) where
  rule : Option (IV → RuleOut IV DV PE)
  format : Option (DV → IV)
  enabledFlag : Bool
  coe : IV → DV
  coeBack : DV → IV
  groupValue : IV
  inputsConfirmed : List Bool
  taskIsPending : Bool
  taskResult : Option (Option (DE × Option DV))
  hasEverValidatedFlag : Bool

/-- `Validator.parseResult` (the `validateOnInput` case reads the
normalized input value instead; conclusiveness and correction are stated
over whatever value the getter reads, here `groupValue`). -/
def VState.parseResult (s : VState IV DV PE DE) : ParseResult IV DV PE :=
  parse IV DV PE s.coe s.rule s.groupValue

/-- `Validator.domainResult`: no task result or a falsy one is success. -/
def VState.domainIsError (s : VState IV DV PE DE) : Bool :=
  match s.taskResult with
  | none => false
  | some none => false
  | some (some _) => true

/-- The correction carried by a failed domain result, if any. -/
def VState.domainCorrection (s : VState IV DV PE DE) : Option DV :=
  match s.taskResult with
  | some (some (_, c)) => c
  | _ => none

/-- `Validator.error`: parse error takes precedence over domain error;
`true` iff the `error` getter returns non-null. -/
def VState.hasError (s : VState IV DV PE DE) : Bool :=
  match s.parseResult with
  | ParseResult.failure _ _ => true
  | ParseResult.success _ _ => s.domainIsError

/-- `Validator.hasUnconfirmedInput`. -/
def VState.hasUnconfirmedInput (s : VState IV DV PE DE) : Bool :=
  s.inputsConfirmed.any (fun b => !b)

/-- `Validator.isConclusive`: domain task not pending, has ever validated,
and no contributing input unconfirmed. -/
def VState.isConclusive (s : VState IV DV PE DE) : Bool :=
  !s.taskIsPending && s.hasEverValidatedFlag && !s.hasUnconfirmedInput

/-- `Validator.isConclusivelyValid`. -/
def VState.isConclusivelyValid (s : VState IV DV PE DE) : Bool :=
  s.isConclusive && !s.hasError

/-- `Validator.isConclusivelyInvalid`. -/
def VState.isConclusivelyInvalid (s : VState IV DV PE DE) : Bool :=
  s.isConclusive && s.hasError

/-- The error thrown by the `correction` getter when a converting parser has
no formatter. -/
inductive CorrectionErr where
  | missingFormatter
deriving DecidableEq

/-- `Validator.correction`: void if disabled; parse correction on parse
failure; else the domain correction, formatted — throwing
`missingFormatter` when the parse rule produced an explicit conversion
(`isParsed`) and no formatter is configured. -/
def VState.correction (s : VState IV DV PE DE) :
    Except CorrectionErr (Option IV) :=
  if !s.enabledFlag then Except.ok none
  else
    match s.parseResult with
    | ParseResult.failure _ c => Except.ok c
    | ParseResult.success isParsed _ =>
      match s.domainCorrection with
      | none => Except.ok none
      | some c =>
        match s.format with
        | none =>
          if isParsed then Except.error CorrectionErr.missingFormatter
          else Except.ok (some (s.coeBack c))
        | some f => Except.ok (some (f c))

/-- A freshly constructed validator over one unconfirmed input: no parse
rule, no formatter, enabled, domain task never invoked. -/
def freshValidator : VState Nat Nat Nat Nat where
  rule := none
  format := none
  enabledFlag := true
  coe := id
  coeBack := id
  groupValue := 0
  inputsConfirmed := [false]
  taskIsPending := false
  taskResult := none
  hasEverValidatedFlag := false

/-- A validator whose parse rule returned an explicit domain conversion and
whose domain task failed with a correction, with no formatter configured. -/
def convertingValidator : VState Nat Nat Nat Nat where
  rule := some (fun _ => ValidatorModel.RuleOut.domain 5)
  format := none
  enabledFlag := true
  coe := id
  coeBack := id
  groupValue := 0
  inputsConfirmed := [true]
  taskIsPending := false
  taskResult := some (some (3, some 7))
  hasEverValidatedFlag := true

/-- C3: whenever the domain task is pending, or the validator has never
validated, or some contributing input is unconfirmed, the validator is
neither conclusively valid nor conclusively invalid. -/
theorem validator_tri_state (s : VState IV DV PE DE)
    (h : s.taskIsPending = true ∨ s.hasEverValidatedFlag = false ∨
      s.hasUnconfirmedInput = true) :
    s.isConclusivelyValid = false ∧ s.isConclusivelyInvalid = false := by
  have hc : s.isConclusive = false := by
    unfold VState.isConclusive
    rcases h with h | h | h <;> simp [h]
  constructor <;> simp [VState.isConclusivelyValid, VState.isConclusivelyInvalid, hc]

/-- Witness for C3: a freshly constructed validator over an unconfirmed
input satisfies both `isConclusivelyValid = false` and
`isConclusivelyInvalid = false`. -/
theorem validator_tri_state_witness :
    freshValidator.hasUnconfirmedInput = true ∧
      freshValidator.isConclusivelyValid = false ∧
      freshValidator.isConclusivelyInvalid = false :=
  ⟨by decide, validator_tri_state freshValidator (Or.inr (Or.inr (by decide)))⟩

/-- C6: for an enabled validator whose parse rule returned an explicit
domain conversion (`isParsed = true`) and whose domain result carries a
correction, reading `correction` with no formatter configured throws
`missingFormatter`; with a formatter it returns the formatter applied to
the domain correction. -/
theorem correction_requires_formatter (s : VState IV DV PE DE) (d : DV) (c : DV)
    (hen : s.enabledFlag = true)
    (hp : s.parseResult = ParseResult.success true d)
    (hc : s.domainCorrection = some c) :
    (s.format = none →
      s.correction = Except.error CorrectionErr.missingFormatter) ∧
    (∀ f, s.format = some f → s.correction = Except.ok (some (f c))) := by
  constructor
  · intro hf
    simp [VState.correction, hen, hp, hc, hf]
  · intro f hf
    simp [VState.correction, hen, hp, hc, hf]

/-- Witness for C6: a concrete converting validator with a domain
correction and no formatter throws `missingFormatter` from `correction`. -/
theorem correction_requires_formatter_witness :
    convertingValidator.format = none ∧
      convertingValidator.correction =
        Except.error CorrectionErr.missingFormatter :=
  ⟨rfl,
    (correction_requires_formatter convertingValidator 5 7
      rfl rfl rfl).1 rfl⟩

end ValidatorModel

namespace Task011

/-- Events on the `Task` variant that exposes `reinvoke`: an `invoke` with an
argument, an explicit `cancel`, and the settlement of a pending invocation.
Only `_lastArg` matters for `reinvoke`; `invoke` records `{args}` before
running the action, and neither `cancel` nor `_settle` ever clears it. -/
inductive Ev (A : Type) where
  | invoke (a : A)
  | cancel
  | settleDone

/-- The `_lastArg` field after one event. -/
def stepLastArg (lastArg : Option A) : Ev A → Option A
  | Ev.invoke a => some a
  | Ev.cancel => lastArg
  | Ev.settleDone => lastArg

/-- `_lastArg` after a whole event history, starting from the initial
`void 0`. -/
def lastArgAfter (es : List (Ev A)) : Option A :=
  es.foldl stepLastArg none

/-- Outcome of `Task.reinvoke`: it either re-invokes the action with the
replayed argument, throws the `InvalidReinvoke` error, or resolves without
invoking the action. -/
inductive ReinvokeOutcome (A : Type) where
  | invoked (a : A)
  | threwInvalidReinvoke
  | resolvedWithoutInvoke
deriving DecidableEq

/-- `Task.reinvoke(required)`: replay `_lastArg` if present; otherwise throw
iff `required`, else resolve without invoking. -/
def reinvoke (lastArg : Option A) (required : Bool) : ReinvokeOutcome A :=
  match lastArg with
  | some a => ReinvokeOutcome.invoked a
  | none =>
    if required then ReinvokeOutcome.threwInvalidReinvoke
    else ReinvokeOutcome.resolvedWithoutInvoke

/-- The argument of the last `invoke` event of a history, if any. -/
def lastInvokeArg (es : List (Ev A)) : Option A :=
  es.foldl (fun acc e => match e with | Ev.invoke a => some a | _ => acc) none

theorem stepLastArg_eq (lastArg : Option A) (e : Ev A) :
    stepLastArg lastArg e =
      (match e with | Ev.invoke a => some a | _ => lastArg) := by
  cases e <;> rfl

/-- `_lastArg` is exactly the argument of the last `invoke` in the history,
regardless of intervening cancels or settlements. -/
theorem lastArgAfter_eq_lastInvokeArg (es : List (Ev A)) :
    lastArgAfter es = lastInvokeArg es := by
  unfold lastArgAfter lastInvokeArg
  induction es using List.reverseRecOn with
  | nil => rfl
  | append_singleton xs x ih =>
    simp only [List.foldl_append, List.foldl_cons, List.foldl_nil, ih]
    cases x <;> rfl

/-- `lastInvokeArg` is `none` exactly when the history holds no `invoke`. -/
theorem lastInvokeArg_eq_none_iff (es : List (Ev A)) :
    lastInvokeArg es = none ↔ ∀ a : A, Ev.invoke a ∉ es := by
  unfold lastInvokeArg
  induction es using List.reverseRecOn with
  | nil => simp
  | append_singleton xs x ih =>
    simp only [List.foldl_append, List.foldl_cons, List.foldl_nil]
    cases x with
    | invoke a =>
      simp only [List.mem_append, List.mem_singleton]
      constructor
      · intro h; cases h
      · intro h; exact absurd (Or.inr rfl) (h a)
    | cancel =>
      simp only [List.mem_append, List.mem_singleton]
      rw [ih]
      constructor
      · intro h a hmem
        rcases hmem with hmem | hmem
        · exact h a hmem
        · cases hmem
      · intro h a hmem; exact h a (Or.inl hmem)
    | settleDone =>
      simp only [List.mem_append, List.mem_singleton]
      rw [ih]
      constructor
      · intro h a hmem
        rcases hmem with hmem | hmem
        · exact h a hmem
        · cases hmem
      · intro h a hmem; exact h a (Or.inl hmem)

/-- C8: `reinvoke(required)` replays the argument of the last `invoke`
whenever one exists (whether or not that invocation completed); it throws
`InvalidReinvoke` exactly when no `invoke` ever happened and `required` is
true; with no prior `invoke` and `required` false it resolves without
invoking the action. -/
theorem reinvoke_spec (es : List (Ev A)) (required : Bool) :
    (∀ a, lastInvokeArg es = some a →
        reinvoke (lastArgAfter es) required = ReinvokeOutcome.invoked a) ∧
    ((∀ a : A, Ev.invoke a ∉ es) → required = false →
        reinvoke (lastArgAfter es) required =
          ReinvokeOutcome.resolvedWithoutInvoke) ∧
    (reinvoke (lastArgAfter es) required = ReinvokeOutcome.threwInvalidReinvoke ↔
      ((∀ a : A, Ev.invoke a ∉ es) ∧ required = true)) := by
  rw [lastArgAfter_eq_lastInvokeArg]
  refine ⟨fun a h => by simp [reinvoke, h], fun h hreq => ?_, ?_⟩
  · rw [(lastInvokeArg_eq_none_iff es).mpr h]
    simp [reinvoke, hreq]
  · rw [← lastInvokeArg_eq_none_iff]
    cases hl : lastInvokeArg es with
    | some a => simp [reinvoke]
    | none =>
      cases required <;> simp [reinvoke]

/-- Witness for C8: after the history `[invoke 3, cancel]` the prior
argument 3 is replayed, and on the empty history with `required = true`
`reinvoke` throws. -/
theorem reinvoke_spec_witness :
    lastInvokeArg [Ev.invoke 3, Ev.cancel] = some 3 ∧
      reinvoke (lastArgAfter [Ev.invoke 3, Ev.cancel]) true =
        ReinvokeOutcome.invoked 3 ∧
      reinvoke (lastArgAfter ([] : List (Ev Nat))) true =
        ReinvokeOutcome.threwInvalidReinvoke :=
  ⟨rfl, (reinvoke_spec [Ev.invoke 3, Ev.cancel] true).1 3 rfl,
    (reinvoke_spec ([] : List (Ev Nat)) true).2.2.mpr ⟨by simp, rfl⟩⟩

end Task011

namespace FormModel

/-- What `Form`'s derived getters read from each member input: its
validators' `error !== null` statuses and its `isConfirmed` flag.
`hasErr` is `input.validators.some(v => v.error !== null)`. -/
structure FInput where
  validatorHasError : List Bool
  isConfirmed : Bool
deriving DecidableEq

/-- `input.validators.some(validator => validator.error !== null)`. -/
def FInput.hasErr (i : FInput) : Bool :=
  i.validatorHasError.any id

/-- `Form.inputErrors`: the member inputs, in `flattedInputs` order, some of
whose validators report an error. -/
def inputErrors (inputs : List FInput) : List FInput :=
  inputs.filter (fun i => i.hasErr)

/-- `Form.unconfirmedInputs`. -/
def unconfirmedInputs (inputs : List FInput) : List FInput :=
  inputs.filter (fun i => !i.isConfirmed)

/-- `Form.nextInput`: `[...this.inputErrors, ...this.unconfirmedInputs][0] || null`. -/
def nextInput (inputs : List FInput) : Option FInput :=
  (inputErrors inputs ++ unconfirmedInputs inputs).head?

theorem head?_filter_eq_find? (p : α → Bool) (l : List α) :
    (l.filter p).head? = l.find? p := by
  induction l with
  | nil => rfl
  | cons x xs ih =>
    by_cases h : p x = true <;>
      simp [List.filter_cons, List.find?_cons, h, ih]

theorem head?_append_or (l₁ l₂ : List α) :
    (l₁ ++ l₂).head? = l₁.head?.or l₂.head? := by
  cases l₁ <;> simp [Option.or]

/-- C9: `nextInput` is the first input (in `flattedInputs` order) with a
validator reporting an error; failing that, the first unconfirmed input;
failing that, null. -/
theorem nextInput_first_error_then_unconfirmed (inputs : List FInput) :
    nextInput inputs =
      (inputs.find? (fun i => i.hasErr)).or
        (inputs.find? (fun i => !i.isConfirmed)) := by
  unfold nextInput inputErrors unconfirmedInputs
  rw [head?_append_or, head?_filter_eq_find?, head?_filter_eq_find?]

end FormModel

namespace GuardSubmit

/-!
The `guardSubmit` wrapper of `src/state/Form.ts`, modelled for a form whose
inputs each carry one validator with a synchronous parse rule (read on the
confirmed value — `validateOnInput` unset) and a synchronous, succeeding
domain action.  With synchronous validators, `inputsPendingValidation` is
always empty and every `await` is on an already-resolved promise, so the
guard is a sequential function of the form state.  Focus is the id of the
focused input. -/

/-- Static description: number of inputs (in `flattedInputs` order), the
per-input validator's parse rule on the confirmed value, the validator's
enabled flag, and the form's `autoConfirm` option. -/
structure GSys (V : Type) where
  nInputs : Nat
  parseFails : Nat → V → Bool
  enabled : Nat → Bool
  autoConfirm : Bool

/-- Form state read and written by the guard. -/
structure GSt (V : Type) where
  values : List V
  confirmed : List Bool
  hasEverValidated : List Bool
  focus : Option Nat
  actionInvoked : Bool
deriving DecidableEq

variable {V A : Type} [Inhabited V]

/-- `validator.error !== null` for input `i`'s validator: a parse failure
on the confirmed value (the domain action never fails here). -/
def inputHasError (sys : GSys V) (st : GSt V) (i : Nat) : Bool :=
  sys.parseFails i (st.values.getD i default)

/-- The guard's submit result: `{outcome: "validation-error", errors}` or
`{outcome: "submit", result}`. -/
inductive SubmitRes (A : Type) where
  | validationError (errors : List Nat)
  | submitted (result : A)
deriving DecidableEq

/-- `guardSubmit`, step by step: snapshot `unconfirmedInputs`; optionally
auto-confirm them; validate their enabled validators (marking
`hasEverValidated`; a failing parse skips the domain task); yield a tick;
focus-and-return on immediate errors; await pending validations (none —
synchronous); re-check; blur a focused input belonging to the form; invoke
the real action on the form's composite value. -/
def guardSubmit (sys : GSys V) (action : List V → A) (st0 : GSt V) :
    SubmitRes A × GSt V :=
  let unconfirmed :=
    (List.range sys.nInputs).filter (fun i => !(st0.confirmed.getD i false))
  let st1 := if sys.autoConfirm
    then { st0 with confirmed :=
            unconfirmed.foldl (fun c i => c.set i true) st0.confirmed }
    else st0
  let st2 := unconfirmed.foldl
    (fun st i =>
      if sys.enabled i
      then { st with hasEverValidated := st.hasEverValidated.set i true }
      else st) st1
  match (List.range sys.nInputs).filter (fun i => inputHasError sys st2 i) with
  | i :: rest =>
    (SubmitRes.validationError (i :: rest), { st2 with focus := some i })
  | [] =>
    match (List.range sys.nInputs).filter (fun i => inputHasError sys st2 i) with
    | i :: rest =>
      (SubmitRes.validationError (i :: rest), { st2 with focus := some i })
    | [] =>
      let st3 := match st2.focus with
        | some i => if i < sys.nInputs then { st2 with focus := none } else st2
        | none => st2
      (SubmitRes.submitted (action st3.values),
        { st3 with actionInvoked := true })

end GuardSubmit

namespace TaskCore

/-!
The `Task` of `src/state/Task.ts` as a transition system over event traces.
Events model the scheduling points of the promise machinery:

* `invoke sync` — `Task.invoke`, with `sync = some r` for an action that
  returns the value `r` synchronously and `sync = none` for an action that
  returns a promise;
* `cancel` — `Task.cancel()`;
* `resolve id r` — the race continuation of invocation `id` running after
  the underlying action promise resolved with `r`.  Per the source, the
  continuation settles only when the race was not won by the killer promise
  and `invokeInstance.isCanceled` is still false at that moment (cancel sets
  `isCanceled` before firing the killer, and the flag is never reset, so
  the source's disjunctive guard collapses to `isCanceled`);
* `killed id` — the race continuation of invocation `id` running after the
  killer promise won (only ever scheduled for a canceled instance): it only
  clears `isPending` when that instance is still the current one.

`result` carries, besides the settled value, the id of the invocation that
produced it — a ghost provenance tag used to state that a result "reflects"
a given invocation. -/

/-- One `InvokeInstance`'s flags. -/
structure InstanceState where
  isCanceled : Bool
  isSettled : Bool
deriving DecidableEq

/-- A freshly created `InvokeInstance`. -/
def InstanceState.fresh : InstanceState := ⟨false, false⟩

/-- `InvokeInstance.cancel`: set the canceled flag (idempotent); never
touches the settled flag. -/
def instCancel (i : InstanceState) : InstanceState :=
  if i.isCanceled then i else { i with isCanceled := true }

/-- `InvokeInstance.settle`: mark settled unless already canceled. -/
def instSettle (i : InstanceState) : InstanceState :=
  if i.isCanceled then i else { i with isSettled := true }

/-- The observable fields of a `Task`, plus the list of all
`InvokeInstance`s ever created (indexed by creation order) and the index of
`_invokeInstance` (`none` = null). -/
structure TaskState (R : Type) where
  result : Option (Nat × R)
  isPending : Bool
  instances : List InstanceState
  current : Option Nat
deriving DecidableEq

/-- The initial task state: no invocation yet. -/
def initState (R : Type) : TaskState R := ⟨none, false, [], none⟩

/-- The flags of invocation `i` (fresh default for out-of-range ids). -/
def instAt (s : TaskState R) (i : Nat) : InstanceState :=
  s.instances.getD i InstanceState.fresh

/-- Apply `f` to entry `i` of an instance list (no-op when out of range,
as `List.set` is). -/
def modifyInst (l : List InstanceState) (i : Nat)
    (f : InstanceState → InstanceState) : List InstanceState :=
  l.set i (f (l.getD i InstanceState.fresh))

/-- `this._invokeInstance && this._invokeInstance.cancel()`. -/
def cancelCurrent (s : TaskState R) : TaskState R :=
  match s.current with
  | none => s
  | some i => { s with instances := modifyInst s.instances i instCancel }

/-- `Task._settle`: settle the instance, clear `isPending`, store the
result, null out `_promise`/`_invokeInstance`. -/
def settleStep (s : TaskState R) (id : Nat) (r : R) : TaskState R :=
  { s with instances := modifyInst s.instances id instSettle,
           isPending := false,
           result := some (id, r),
           current := none }

/-- The synchronous prefix of `Task.invoke`, up to running the action:
cancel the prior invocation if pending, create a fresh `InvokeInstance`
(whose id is returned alongside), make it current, reset `_isPending`. -/
def invokePrep (s : TaskState R) : TaskState R × Nat :=
  let s1 := if s.isPending then cancelCurrent s else s
  let id := s1.instances.length
  ({ s1 with instances := s1.instances ++ [InstanceState.fresh],
             current := some id, isPending := false }, id)

/-- `Task.invoke`: after the prefix, a synchronous action settles at once,
an asynchronous one leaves the task pending until its race continuation
runs. -/
def invokeStep (s : TaskState R) (sync : Option R) : TaskState R :=
  match sync with
  | none => { (invokePrep s).1 with isPending := true }
  | some r => settleStep (invokePrep s).1 (invokePrep s).2 r

/-- The race continuation for invocation `id`, running after the
underlying action promise resolved with `r`: if the instance was canceled
by then, only clear `isPending` when it is still current; otherwise settle.
(The settled-instance and out-of-range guards exclude re-settlement, which
cannot occur since a promise continuation runs at most once.) -/
def resolveStep (s : TaskState R) (id : Nat) (r : R) : TaskState R :=
  if id < s.instances.length then
    if (instAt s id).isCanceled then
      (if s.current = some id then { s with isPending := false } else s)
    else if (instAt s id).isSettled then s
    else settleStep s id r
  else s

/-- The race continuation for invocation `id` after the killer promise won
(so the instance is canceled): clear `isPending` if still current. -/
def killedStep (s : TaskState R) (id : Nat) : TaskState R :=
  if (instAt s id).isCanceled then
    (if s.current = some id then { s with isPending := false } else s)
  else s

/-- Schedulable events. -/
inductive Ev (R : Type) where
  | invoke (sync : Option R)
  | cancel
  | resolve (id : Nat) (r : R)
  | killed (id : Nat)

/-- One scheduling step. -/
def step (s : TaskState R) : Ev R → TaskState R
  | Ev.invoke sync => invokeStep s sync
  | Ev.cancel => cancelCurrent s
  | Ev.resolve id r => resolveStep s id r
  | Ev.killed id => killedStep s id

/-- The state after a trace of events, from the initial state. -/
def runT (es : List (Ev R)) : TaskState R := es.foldl step (initState R)

theorem instCancel_isCanceled (x : InstanceState) :
    (instCancel x).isCanceled = true := by
  unfold instCancel; split <;> simp_all

theorem instCancel_isSettled (x : InstanceState) :
    (instCancel x).isSettled = x.isSettled := by
  unfold instCancel; split <;> rfl

theorem instSettle_isCanceled (x : InstanceState) :
    (instSettle x).isCanceled = x.isCanceled := by
  unfold instSettle; split <;> rfl

theorem instSettle_isSettled_of_not_canceled (x : InstanceState)
    (h : x.isCanceled = false) : (instSettle x).isSettled = true := by
  unfold instSettle; simp [h]

theorem instSettle_isSettled_mono (x : InstanceState)
    (h : x.isSettled = true) : (instSettle x).isSettled = true := by
  unfold instSettle; split <;> simp_all

theorem length_modifyInst (l : List InstanceState) (i : Nat)
    (f : InstanceState → InstanceState) :
    (modifyInst l i f).length = l.length := by
  simp [modifyInst]

theorem getD_modifyInst (l : List InstanceState) (i j : Nat)
    (f : InstanceState → InstanceState) :
    (modifyInst l i f).getD j InstanceState.fresh =
      if j = i ∧ i < l.length then f (l.getD i InstanceState.fresh)
      else l.getD j InstanceState.fresh := by
  unfold modifyInst
  by_cases hcond : j = i ∧ i < l.length
  · obtain ⟨rfl, hi⟩ := hcond
    rw [if_pos ⟨rfl, hi⟩]
    have h2 : j < (l.set j (f (l.getD j InstanceState.fresh))).length := by
      simpa using hi
    rw [List.getD_eq_getElem _ _ h2]
    simp
  · rw [if_neg hcond]
    by_cases hi : i < l.length
    · have hji : j ≠ i := fun h => hcond ⟨h, hi⟩
      by_cases hj : j < l.length
      · have hj2 : j < (l.set i (f (l.getD i InstanceState.fresh))).length := by
          simpa using hj
        rw [List.getD_eq_getElem _ _ hj2, List.getD_eq_getElem _ _ hj]
        exact List.getElem_set_ne (Ne.symm hji) _
      · rw [List.getD_eq_default _ _ (by simpa using Nat.le_of_not_lt hj),
          List.getD_eq_default _ _ (Nat.le_of_not_lt hj)]
    · rw [List.set_eq_of_length_le (Nat.le_of_not_lt hi)]

/-- Invocation `i` is live: created, not canceled, not settled. -/
def live (s : TaskState R) (i : Nat) : Prop :=
  i < s.instances.length ∧ (instAt s i).isCanceled = false ∧
    (instAt s i).isSettled = false

/-- The reachability invariant: a live invocation is the current one and
the task is pending (so a superseding `invoke` will cancel it), and the
stored result always stems from a settled invocation. -/
structure Inv (s : TaskState R) : Prop where
  live_current : ∀ i, live s i → s.current = some i ∧ s.isPending = true
  result_settled : ∀ id r, s.result = some (id, r) →
    id < s.instances.length ∧ (instAt s id).isSettled = true

theorem inv_init : Inv (initState R) := by
  constructor
  · rintro i ⟨hlen, -⟩
    simp [initState] at hlen
  · rintro id r h
    simp [initState] at h

theorem cancelCurrent_result (s : TaskState R) :
    (cancelCurrent s).result = s.result := by
  unfold cancelCurrent; cases hc : s.current <;> simp [hc]

theorem cancelCurrent_current (s : TaskState R) :
    (cancelCurrent s).current = s.current := by
  unfold cancelCurrent; cases hc : s.current <;> simp [hc]

theorem cancelCurrent_isPending (s : TaskState R) :
    (cancelCurrent s).isPending = s.isPending := by
  unfold cancelCurrent; cases hc : s.current <;> simp [hc]

theorem cancelCurrent_length (s : TaskState R) :
    (cancelCurrent s).instances.length = s.instances.length := by
  unfold cancelCurrent; cases hc : s.current <;> simp [hc, length_modifyInst]

theorem instAt_cancelCurrent (s : TaskState R) (j : Nat) :
    instAt (cancelCurrent s) j =
      if s.current = some j ∧ j < s.instances.length
      then instCancel (instAt s j) else instAt s j := by
  unfold cancelCurrent
  cases hc : s.current with
  | none => simp
  | some i =>
    show instAt { s with instances := modifyInst s.instances i instCancel } j = _
    unfold instAt
    show (modifyInst s.instances i instCancel).getD j InstanceState.fresh = _
    rw [getD_modifyInst]
    by_cases h : j = i ∧ i < s.instances.length
    · obtain ⟨rfl, hi⟩ := h
      simp [hi]
    · rw [if_neg h, if_neg]
      rintro ⟨h1, h2⟩
      exact h ⟨(Option.some.inj h1).symm, (Option.some.inj h1) ▸ h2⟩

theorem settleStep_result (s : TaskState R) (id : Nat) (r : R) :
    (settleStep s id r).result = some (id, r) := rfl

theorem settleStep_current (s : TaskState R) (id : Nat) (r : R) :
    (settleStep s id r).current = none := rfl

theorem settleStep_isPending (s : TaskState R) (id : Nat) (r : R) :
    (settleStep s id r).isPending = false := rfl

theorem settleStep_length (s : TaskState R) (id : Nat) (r : R) :
    (settleStep s id r).instances.length = s.instances.length := by
  show (modifyInst s.instances id instSettle).length = _
  exact length_modifyInst _ _ _

theorem instAt_settleStep (s : TaskState R) (id : Nat) (r : R) (j : Nat) :
    instAt (settleStep s id r) j =
      if j = id ∧ id < s.instances.length
      then instSettle (instAt s j) else instAt s j := by
  unfold settleStep instAt
  show (modifyInst s.instances id instSettle).getD j InstanceState.fresh = _
  rw [getD_modifyInst]
  by_cases h : j = id ∧ id < s.instances.length
  · obtain ⟨rfl, hi⟩ := h
    simp [hi]
  · rw [if_neg h, if_neg h]

theorem instAt_append_fresh_lt (l : List InstanceState)
    (j : Nat) (hj : j < l.length) :
    (l ++ [InstanceState.fresh]).getD j InstanceState.fresh =
      l.getD j InstanceState.fresh :=
  List.getD_append _ _ _ _ hj

theorem instAt_append_fresh_self (l : List InstanceState) :
    (l ++ [InstanceState.fresh]).getD l.length InstanceState.fresh =
      InstanceState.fresh := by
  rw [List.getD_append_right _ _ _ _ (Nat.le_refl _)]
  simp

theorem invokePrep_id (s : TaskState R) :
    (invokePrep s).2 = s.instances.length := by
  unfold invokePrep
  by_cases hp : s.isPending <;> simp [hp, cancelCurrent_length]

theorem invokePrep_length (s : TaskState R) :
    (invokePrep s).1.instances.length = s.instances.length + 1 := by
  unfold invokePrep
  by_cases hp : s.isPending <;> simp [hp, cancelCurrent_length]

theorem invokePrep_result (s : TaskState R) :
    (invokePrep s).1.result = s.result := by
  unfold invokePrep
  by_cases hp : s.isPending <;> simp [hp, cancelCurrent_result]

theorem invokePrep_current (s : TaskState R) :
    (invokePrep s).1.current = some s.instances.length := by
  unfold invokePrep
  by_cases hp : s.isPending <;> simp [hp, cancelCurrent_length]

theorem invokePrep_isPending (s : TaskState R) :
    (invokePrep s).1.isPending = false := by
  unfold invokePrep
  by_cases hp : s.isPending <;> simp [hp]

theorem instAt_invokePrep_lt (s : TaskState R) (j : Nat)
    (hj : j < s.instances.length) :
    instAt (invokePrep s).1 j =
      if s.isPending = true ∧ s.current = some j
      then instCancel (instAt s j) else instAt s j := by
  unfold invokePrep
  by_cases hp : s.isPending
  · rw [if_pos hp]
    show ((cancelCurrent s).instances ++ [InstanceState.fresh]).getD j
        InstanceState.fresh = _
    rw [instAt_append_fresh_lt _ j (by rw [cancelCurrent_length]; exact hj)]
    show instAt (cancelCurrent s) j = _
    rw [instAt_cancelCurrent]
    by_cases hc : s.current = some j
    · rw [if_pos ⟨hc, hj⟩, if_pos ⟨hp, hc⟩]
    · rw [if_neg (fun h => hc h.1), if_neg (fun h => hc h.2)]
  · rw [if_neg hp]
    show (s.instances ++ [InstanceState.fresh]).getD j InstanceState.fresh = _
    rw [instAt_append_fresh_lt _ j hj]
    rw [if_neg (fun h => hp h.1)]
    rfl

theorem instAt_invokePrep_self (s : TaskState R) :
    instAt (invokePrep s).1 s.instances.length = InstanceState.fresh := by
  unfold invokePrep
  by_cases hp : s.isPending
  · simp only [hp, if_true]
    show ((cancelCurrent s).instances ++ [InstanceState.fresh]).getD
        s.instances.length InstanceState.fresh = _
    rw [← cancelCurrent_length s]
    exact instAt_append_fresh_self _
  · simp only [hp, if_false]
    exact instAt_append_fresh_self _

theorem invokeStep_length (s : TaskState R) (sync : Option R) :
    (invokeStep s sync).instances.length = s.instances.length + 1 := by
  cases sync with
  | none => exact invokePrep_length s
  | some r =>
    show (settleStep (invokePrep s).1 (invokePrep s).2 r).instances.length = _
    rw [settleStep_length, invokePrep_length]

theorem invokeStep_result_async (s : TaskState R) :
    (invokeStep s none).result = s.result := invokePrep_result s

theorem invokeStep_result_sync (s : TaskState R) (r : R) :
    (invokeStep s (some r)).result = some (s.instances.length, r) := by
  show (settleStep (invokePrep s).1 (invokePrep s).2 r).result = _
  rw [settleStep_result, invokePrep_id]

theorem instAt_invokeStep_lt (s : TaskState R) (sync : Option R) (j : Nat)
    (hj : j < s.instances.length) :
    instAt (invokeStep s sync) j =
      if s.isPending = true ∧ s.current = some j
      then instCancel (instAt s j) else instAt s j := by
  cases sync with
  | none => exact instAt_invokePrep_lt s j hj
  | some r =>
    show instAt (settleStep (invokePrep s).1 (invokePrep s).2 r) j = _
    rw [instAt_settleStep]
    rw [if_neg ?_]
    · exact instAt_invokePrep_lt s j hj
    · rintro ⟨rfl, -⟩
      rw [invokePrep_id] at hj
      exact Nat.lt_irrefl _ hj

theorem instAt_invokeStep_self (s : TaskState R) (r : R) :
    instAt (invokeStep s (some r)) s.instances.length =
      instSettle InstanceState.fresh := by
  show instAt (settleStep (invokePrep s).1 (invokePrep s).2 r) _ = _
  rw [instAt_settleStep]
  have hlt : (invokePrep s).2 < (invokePrep s).1.instances.length := by
    rw [invokePrep_id, invokePrep_length]
    exact Nat.lt_succ_self _
  rw [if_pos ⟨(invokePrep_id s).symm, hlt⟩, instAt_invokePrep_self]

theorem invokeStep_current_async (s : TaskState R) :
    (invokeStep s none).current = some s.instances.length := invokePrep_current s

theorem invokeStep_isPending_async (s : TaskState R) :
    (invokeStep s none).isPending = true := rfl

theorem resolveStep_length (s : TaskState R) (id : Nat) (r : R) :
    (resolveStep s id r).instances.length = s.instances.length := by
  unfold resolveStep
  repeat' split
  all_goals first | rfl | exact settleStep_length s id r

theorem killedStep_length (s : TaskState R) (id : Nat) :
    (killedStep s id).instances.length = s.instances.length := by
  unfold killedStep
  repeat' split
  all_goals rfl

theorem killedStep_result (s : TaskState R) (id : Nat) :
    (killedStep s id).result = s.result := by
  unfold killedStep
  repeat' split
  all_goals rfl

theorem instAt_killedStep (s : TaskState R) (id j : Nat) :
    instAt (killedStep s id) j = instAt s j := by
  unfold killedStep
  repeat' split
  all_goals rfl

theorem boolNotTrue {b : Bool} (h : ¬ b = true) : b = false := by
  cases b
  · rfl
  · exact absurd rfl h

/-- Invariant preservation over a single event. -/
theorem inv_step (s : TaskState R) (e : Ev R) (h : Inv s) : Inv (step s e) := by
  cases e with
  | invoke sync =>
    show Inv (invokeStep s sync)
    constructor
    · rintro j ⟨hjlen, hcanc, hsett⟩
      rw [invokeStep_length] at hjlen
      by_cases hj : j = s.instances.length
      · subst hj
        cases sync with
        | none => exact ⟨invokeStep_current_async s, rfl⟩
        | some r =>
          rw [instAt_invokeStep_self] at hsett
          rw [instSettle_isSettled_of_not_canceled _ rfl] at hsett
          cases hsett
      · have hjlt : j < s.instances.length := by omega
        rw [instAt_invokeStep_lt s sync j hjlt] at hcanc hsett
        by_cases hcond : s.isPending = true ∧ s.current = some j
        · rw [if_pos hcond, instCancel_isCanceled] at hcanc
          cases hcanc
        · rw [if_neg hcond] at hcanc hsett
          have := h.live_current j ⟨hjlt, hcanc, hsett⟩
          exact absurd ⟨this.2, this.1⟩ hcond
    · intro id r hres
      cases sync with
      | none =>
        rw [invokeStep_result_async] at hres
        obtain ⟨hlt, hsett⟩ := h.result_settled id r hres
        refine ⟨by rw [invokeStep_length]; omega, ?_⟩
        rw [instAt_invokeStep_lt s none id hlt]
        by_cases hcond : s.isPending = true ∧ s.current = some id
        · rw [if_pos hcond, instCancel_isSettled]; exact hsett
        · rw [if_neg hcond]; exact hsett
      | some r0 =>
        rw [invokeStep_result_sync] at hres
        obtain ⟨rfl, rfl⟩ : id = s.instances.length ∧ r = r0 := by
          injection hres with h1
          injection h1 with h2 h3
          exact ⟨h2.symm, h3.symm⟩
        refine ⟨by rw [invokeStep_length]; omega, ?_⟩
        rw [instAt_invokeStep_self]
        exact instSettle_isSettled_of_not_canceled _ rfl
  | cancel =>
    show Inv (cancelCurrent s)
    constructor
    · rintro j ⟨hjlen, hcanc, hsett⟩
      rw [cancelCurrent_length] at hjlen
      rw [instAt_cancelCurrent] at hcanc hsett
      by_cases hcond : s.current = some j ∧ j < s.instances.length
      · rw [if_pos hcond, instCancel_isCanceled] at hcanc
        cases hcanc
      · rw [if_neg hcond] at hcanc hsett
        have := h.live_current j ⟨hjlen, hcanc, hsett⟩
        exact absurd ⟨this.1, hjlen⟩ hcond
    · intro id r hres
      rw [cancelCurrent_result] at hres
      obtain ⟨hlt, hsett⟩ := h.result_settled id r hres
      refine ⟨by rw [cancelCurrent_length]; exact hlt, ?_⟩
      rw [instAt_cancelCurrent]
      by_cases hcond : s.current = some id ∧ id < s.instances.length
      · rw [if_pos hcond, instCancel_isSettled]; exact hsett
      · rw [if_neg hcond]; exact hsett
  | resolve id r =>
    show Inv (resolveStep s id r)
    unfold resolveStep
    by_cases hid : id < s.instances.length
    · rw [if_pos hid]
      by_cases hcanc : (instAt s id).isCanceled
      · rw [if_pos hcanc]
        by_cases hcur : s.current = some id
        · rw [if_pos hcur]
          constructor
          · rintro j ⟨hjlen, hjc, hjs⟩
            have hjlen2 : j < s.instances.length := hjlen
            have hjc2 : (instAt s j).isCanceled = false := hjc
            have hjs2 : (instAt s j).isSettled = false := hjs
            have hl := h.live_current j ⟨hjlen2, hjc2, hjs2⟩
            rw [hcur] at hl
            obtain ⟨heq, -⟩ := hl
            injection heq with heq
            subst heq
            rw [hcanc] at hjc2
            cases hjc2
          · intro id0 r0 hres
            have hres2 : s.result = some (id0, r0) := hres
            obtain ⟨hlt, hsett⟩ := h.result_settled id0 r0 hres2
            exact ⟨hlt, hsett⟩
        · rw [if_neg hcur]; exact h
      · rw [if_neg hcanc]
        by_cases hsett : (instAt s id).isSettled
        · rw [if_pos hsett]; exact h
        · rw [if_neg hsett]
          have hlive := h.live_current id
            ⟨hid, boolNotTrue hcanc, boolNotTrue hsett⟩
          constructor
          · rintro j ⟨hjlen, hjc, hjs⟩
            rw [settleStep_length] at hjlen
            rw [instAt_settleStep] at hjc hjs
            by_cases hcond : j = id ∧ id < s.instances.length
            · obtain ⟨rfl, -⟩ := hcond
              rw [if_pos ⟨rfl, hid⟩] at hjs
              rw [instSettle_isSettled_of_not_canceled _
                (boolNotTrue hcanc)] at hjs
              cases hjs
            · rw [if_neg hcond] at hjc hjs
              have hl2 := h.live_current j ⟨hjlen, hjc, hjs⟩
              rw [hlive.1] at hl2
              obtain ⟨heq, -⟩ := hl2
              injection heq with heq
              exact absurd ⟨heq.symm, hid⟩ hcond
          · intro id0 r0 hres
            rw [settleStep_result] at hres
            obtain ⟨rfl, rfl⟩ : id0 = id ∧ r0 = r := by
              injection hres with h1
              injection h1 with h2 h3
              exact ⟨h2.symm, h3.symm⟩
            refine ⟨by rw [settleStep_length]; exact hid, ?_⟩
            rw [instAt_settleStep, if_pos ⟨rfl, hid⟩]
            exact instSettle_isSettled_of_not_canceled _ (boolNotTrue hcanc)
    · rw [if_neg hid]; exact h
  | killed id =>
    show Inv (killedStep s id)
    constructor
    · rintro j ⟨hjlen, hjc, hjs⟩
      rw [killedStep_length] at hjlen
      rw [instAt_killedStep] at hjc hjs
      have hl := h.live_current j ⟨hjlen, hjc, hjs⟩
      show (killedStep s id).current = some j ∧ (killedStep s id).isPending = true
      unfold killedStep
      by_cases hcanc : (instAt s id).isCanceled
      · rw [if_pos hcanc]
        by_cases hcur : s.current = some id
        · rw [hl.1] at hcur
          injection hcur with hcur
          subst hcur
          rw [hcanc] at hjc
          cases hjc
        · rw [if_neg hcur]; exact hl
      · rw [if_neg hcanc]; exact hl
    · intro id0 r0 hres
      rw [killedStep_result] at hres
      obtain ⟨hlt, hsett⟩ := h.result_settled id0 r0 hres
      rw [killedStep_length, instAt_killedStep]
      exact ⟨hlt, hsett⟩

theorem inv_foldl (t : List (Ev R)) (s : TaskState R) (h : Inv s) :
    Inv (t.foldl step s) := by
  induction t generalizing s with
  | nil => exact h
  | cons e t ih => exact ih (step s e) (inv_step s e h)

theorem inv_runT (es : List (Ev R)) : Inv (runT es) :=
  inv_foldl es (initState R) inv_init

theorem step_length_le (s : TaskState R) (e : Ev R) :
    s.instances.length ≤ (step s e).instances.length := by
  cases e with
  | invoke sync =>
    show _ ≤ (invokeStep s sync).instances.length
    rw [invokeStep_length]
    exact Nat.le_succ _
  | cancel =>
    show _ ≤ (cancelCurrent s).instances.length
    rw [cancelCurrent_length]
  | resolve id r =>
    show _ ≤ (resolveStep s id r).instances.length
    rw [resolveStep_length]
  | killed id =>
    show _ ≤ (killedStep s id).instances.length
    rw [killedStep_length]

theorem foldl_length_le (t : List (Ev R)) (s : TaskState R) :
    s.instances.length ≤ (t.foldl step s).instances.length := by
  induction t generalizing s with
  | nil => exact Nat.le_refl _
  | cons e t ih => exact Nat.le_trans (step_length_le s e) (ih (step s e))

/-- Invocation `ia` has been superseded: it is canceled, unsettled, and the
stored result does not stem from it.  This is preserved by every event, so
a superseded invocation's resolution can never surface in `result`. -/
def superseded (s : TaskState R) (ia : Nat) : Prop :=
  ia < s.instances.length ∧ (instAt s ia).isCanceled = true ∧
    (instAt s ia).isSettled = false ∧ ∀ r, s.result ≠ some (ia, r)

theorem superseded_step (s : TaskState R) (ia : Nat) (e : Ev R)
    (h : superseded s ia) : superseded (step s e) ia := by
  obtain ⟨hlen, hcanc, hsett, hres⟩ := h
  cases e with
  | invoke sync =>
    show superseded (invokeStep s sync) ia
    have hflags := instAt_invokeStep_lt s sync ia hlen
    refine ⟨by rw [invokeStep_length]; omega, ?_, ?_, ?_⟩
    · rw [hflags]
      by_cases hcond : s.isPending = true ∧ s.current = some ia
      · rw [if_pos hcond]
        exact instCancel_isCanceled _
      · rw [if_neg hcond]
        exact hcanc
    · rw [hflags]
      by_cases hcond : s.isPending = true ∧ s.current = some ia
      · rw [if_pos hcond, instCancel_isSettled]
        exact hsett
      · rw [if_neg hcond]
        exact hsett
    · intro r
      cases sync with
      | none =>
        rw [invokeStep_result_async]
        exact hres r
      | some r0 =>
        rw [invokeStep_result_sync]
        intro hcontra
        injection hcontra with hcontra
        injection hcontra with h1 h2
        omega
  | cancel =>
    show superseded (cancelCurrent s) ia
    have hflags := instAt_cancelCurrent s ia
    refine ⟨by rw [cancelCurrent_length]; exact hlen, ?_, ?_, ?_⟩
    · rw [hflags]
      by_cases hcond : s.current = some ia ∧ ia < s.instances.length
      · rw [if_pos hcond]
        exact instCancel_isCanceled _
      · rw [if_neg hcond]
        exact hcanc
    · rw [hflags]
      by_cases hcond : s.current = some ia ∧ ia < s.instances.length
      · rw [if_pos hcond, instCancel_isSettled]
        exact hsett
      · rw [if_neg hcond]
        exact hsett
    · intro r
      rw [cancelCurrent_result]
      exact hres r
  | resolve id r =>
    show superseded (resolveStep s id r) ia
    unfold resolveStep
    by_cases hid : id < s.instances.length
    · rw [if_pos hid]
      by_cases hidc : (instAt s id).isCanceled
      · rw [if_pos hidc]
        by_cases hcur : s.current = some id
        · rw [if_pos hcur]
          exact ⟨hlen, hcanc, hsett, hres⟩
        · rw [if_neg hcur]
          exact ⟨hlen, hcanc, hsett, hres⟩
      · rw [if_neg hidc]
        have hne : ia ≠ id := by
          intro hcontra
          subst hcontra
          rw [hcanc] at hidc
          exact hidc rfl
        by_cases hids : (instAt s id).isSettled
        · rw [if_pos hids]
          exact ⟨hlen, hcanc, hsett, hres⟩
        · rw [if_neg hids]
          have hflags := instAt_settleStep s id r ia
          rw [if_neg (fun hcontra => hne hcontra.1)] at hflags
          refine ⟨by rw [settleStep_length]; exact hlen,
            by rw [hflags]; exact hcanc, by rw [hflags]; exact hsett, ?_⟩
          intro r0
          rw [settleStep_result]
          intro hcontra
          injection hcontra with hcontra
          injection hcontra with h1 h2
          exact hne h1.symm
    · rw [if_neg hid]
      exact ⟨hlen, hcanc, hsett, hres⟩
  | killed id =>
    show superseded (killedStep s id) ia
    refine ⟨by rw [killedStep_length]; exact hlen,
      by rw [instAt_killedStep]; exact hcanc,
      by rw [instAt_killedStep]; exact hsett, ?_⟩
    intro r
    rw [killedStep_result]
    exact hres r

theorem superseded_foldl (t : List (Ev R)) (s : TaskState R) (ia : Nat)
    (h : superseded s ia) : superseded (t.foldl step s) ia := by
  induction t generalizing s with
  | nil => exact h
  | cons e t ih => exact ih (step s e) (superseded_step s ia e h)

theorem runT_decomp (xs : List (Ev R)) (e : Ev R) (ys : List (Ev R)) :
    runT (xs ++ e :: ys) = ys.foldl step (step (runT xs) e) := by
  unfold runT
  rw [List.foldl_append]
  rfl

/-- C1: for every trace in which an asynchronous `invoke(a)` is followed —
at any point before `a`'s invocation settles — by another `invoke(b)`, the
task's `result` never stems from `a`'s invocation afterwards, whatever
events follow (in particular even if `a`'s underlying action promise later
resolves, via `Ev.resolve`).  `(runT t1).instances.length` is the id of
`a`'s invocation. -/
theorem task_superseded_result_never_observed (R : Type) (t1 t2 t3 : List (Ev R))
    (y : Option R)
    (hunsettled :
      (instAt (runT (t1 ++ Ev.invoke none :: t2))
        (runT t1).instances.length).isSettled = false) :
    ∀ r : R,
      (runT (t1 ++ Ev.invoke none :: (t2 ++ Ev.invoke y :: t3))).result ≠
        some ((runT t1).instances.length, r) := by
  intro r
  rw [runT_decomp] at hunsettled
  rw [runT_decomp, List.foldl_append, List.foldl_cons]
  revert hunsettled
  generalize hs0 : runT t1 = s0
  intro hunsettled
  revert hunsettled
  generalize hsa : step s0 (Ev.invoke none) = sa
  intro hunsettled
  revert hunsettled
  generalize hsj : t2.foldl step sa = sj
  intro hunsettled
  have hia : s0.instances.length < sa.instances.length := by
    rw [← hsa]
    show _ < (invokeStep s0 none).instances.length
    rw [invokeStep_length]
    exact Nat.lt_succ_self _
  have hlen_j : s0.instances.length < sj.instances.length :=
    Nat.lt_of_lt_of_le hia (hsj ▸ foldl_length_le t2 sa)
  have hinvj : Inv sj := by
    rw [← hsj, ← hsa, ← hs0]
    exact inv_foldl _ _ (inv_step _ _ (inv_runT _))
  have hresj : ∀ r0, sj.result ≠ some (s0.instances.length, r0) := by
    intro r0 hcontra
    obtain ⟨-, hsett⟩ := hinvj.result_settled _ r0 hcontra
    rw [hunsettled] at hsett
    cases hsett
  have hresb : ∀ r0,
      (invokeStep sj y).result ≠ some (s0.instances.length, r0) := by
    intro r0
    cases y with
    | none =>
      rw [invokeStep_result_async]
      exact hresj r0
    | some r1 =>
      rw [invokeStep_result_sync]
      intro hcontra
      injection hcontra with hcontra
      injection hcontra with h1 h2
      omega
  have hsup : superseded (step sj (Ev.invoke y)) s0.instances.length := by
    show superseded (invokeStep sj y) s0.instances.length
    have hflags := instAt_invokeStep_lt sj y s0.instances.length hlen_j
    by_cases hcanc : (instAt sj s0.instances.length).isCanceled = true
    · refine ⟨by rw [invokeStep_length]; omega, ?_, ?_, hresb⟩
      · rw [hflags]
        by_cases hcond : sj.isPending = true ∧ sj.current = some s0.instances.length
        · rw [if_pos hcond]
          exact instCancel_isCanceled _
        · rw [if_neg hcond]
          exact hcanc
      · rw [hflags]
        by_cases hcond : sj.isPending = true ∧ sj.current = some s0.instances.length
        · rw [if_pos hcond, instCancel_isSettled]
          exact hunsettled
        · rw [if_neg hcond]
          exact hunsettled
    · have hlive := hinvj.live_current _ ⟨hlen_j, boolNotTrue hcanc, hunsettled⟩
      have hcond : sj.isPending = true ∧ sj.current = some s0.instances.length :=
        ⟨hlive.2, hlive.1⟩
      refine ⟨by rw [invokeStep_length]; omega, ?_, ?_, hresb⟩
      · rw [hflags, if_pos hcond]
        exact instCancel_isCanceled _
      · rw [hflags, if_pos hcond, instCancel_isSettled]
        exact hunsettled
  exact (superseded_foldl t3 (step sj (Ev.invoke y)) _ hsup).2.2.2 r

/-- Witness for C1: the concrete trace `invoke(a)` (async), `invoke(b)`
(sync, value 42), then `a`'s underlying promise resolves with 7 — yet the
result never becomes `a`'s 7; it is `b`'s 42. -/
theorem task_superseded_result_never_observed_witness :
    (instAt (runT (([] : List (Ev Nat)) ++ Ev.invoke none :: []))
        (runT ([] : List (Ev Nat))).instances.length).isSettled = false ∧
      (runT (([] : List (Ev Nat)) ++ Ev.invoke none ::
          ([] ++ Ev.invoke (some 42) :: [Ev.resolve 0 7]))).result ≠
        some ((runT ([] : List (Ev Nat))).instances.length, 7) ∧
      (runT (([] : List (Ev Nat)) ++ Ev.invoke none ::
          ([] ++ Ev.invoke (some 42) :: [Ev.resolve 0 7]))).result =
        some (1, 42) :=
  ⟨by decide,
    task_superseded_result_never_observed Nat [] [] [Ev.resolve 0 7]
      (some 42) (by decide) 7,
    by decide⟩

end TaskCore

namespace GuardSubmit

/-- The submit result of a `form.submit()` run of the guard. -/
def submitOutcome (sys : GSys V) (action : List V → A) (st : GSt V)
    [Inhabited V] : SubmitRes A :=
  (guardSubmit sys action st).1

/-- The submit `Task` after `submit()` settles: `invoke` of the (async)
guard action followed by its race continuation resolving with the guard's
result. -/
def submitFinalTask (sys : GSys V) (action : List V → A) (st : GSt V)
    [Inhabited V] : TaskCore.TaskState (SubmitRes A) :=
  TaskCore.runT
    [TaskCore.Ev.invoke none,
     TaskCore.Ev.resolve 0 (submitOutcome sys action st)]

/-- The C7 scenario: input 0 is the required street input (value 0 stands
for the empty string, on which its parse rule fails), input 1 the city
input (value 1 stands for "Berlin", parsing fine). -/
def sysC7 : GSys Nat where
  nInputs := 2
  parseFails := fun i v => i == 0 && v == 0
  enabled := fun _ => true
  autoConfirm := false

/-- The scenario's submit action (never reached). -/
def actionC7 : List Nat → Nat := fun _ => 99

/-- street = "" (0), city = "Berlin" (1), both unconfirmed, nothing
focused. -/
def st0C7 : GSt Nat := ⟨[0, 1], [false, false], [false, false], none, false⟩

/-- C7: submitting the street/city form with an empty required street
yields `{outcome: "validation-error", errors: [street]}`, focuses the
street input, never invokes the real submit action, and `isSubmitting` is
false once the submit promise settles. -/
theorem form_submit_gating_scenario :
    submitOutcome sysC7 actionC7 st0C7 = SubmitRes.validationError [0] ∧
      (guardSubmit sysC7 actionC7 st0C7).2.focus = some 0 ∧
      (guardSubmit sysC7 actionC7 st0C7).2.actionInvoked = false ∧
      (submitFinalTask sysC7 actionC7 st0C7).isPending = false := by
  decide

end GuardSubmit

namespace InputConfirm

/-!
The `Input.confirm` cascade and `Input.validate` sweep of
`src/state/Input.ts`, modelled for validators whose domain actions are
synchronous.  With synchronous domain actions every `await` in the dispatch
is on an already-resolved promise and no validator is ever observed in
`isValidationPending` state, so the concurrent `Promise.all` dispatch is
state-equivalent to validating the collected inputs one after the other,
which is how `confirm` is modelled here.  The module-level
`confirmStack` / `validationCandidates` globals are threaded through the
state; the `next`/auto-advance tail of `confirm` and the group
`handleInputConfirm` hooks (absent in the modelled scenarios) are not
modelled.  Two ghost counters are added: per-validator domain-task
invocation counts, and the number of root validation dispatches. -/

/-- The validate filter argument: `"input"`, `"confirm"`, or null. -/
inductive Filter where
  | inputF
  | confirmF
  | noneF
deriving DecidableEq

/-- Static description of a system of inputs and validators, identified by
indices.  `validatorsOf` is `input.validators`; `inputsOf` is a
validator's `flattedInputs`; `cascade` models a `confirmCascade` callback
that confirms the listed inputs with the listed values, in order;
`parseError` is the validator's parse rule read on its inputs' confirmed
values; `enabled` is the validator's (state-independent) enabled
predicate. -/
structure Sys (V : Type) where
  validatorsOf : Nat → List Nat
  inputsOf : Nat → List Nat
  revalidate : Nat → Option (V → V → Bool)
  normalizer : Nat → Option (V → V)
  cascade : Nat → Option (List (Nat × V))
  enabled : Nat → Bool
  validateOnInput : Nat → Bool
  parseError : Nat → List V → Bool

/-- Mutable state: per-input `_value`, `_inputValue` (undefined = `none`),
`_isConfirmed`, `isBeingSubmitted`; per-validator `_hasEverValidated` and
the ghost invocation counter; the module-level `confirmStack` depth and
`validationCandidates`; and the ghost dispatch counter. -/
structure St (V : Type) where
  value : List V
  inputValue : List (Option V)
  isConfirmed : List Bool
  beingSubmitted : List Bool
  hasEverValidated : List Bool
  invokeCount : List Nat
  stackDepth : Nat
  candidates : List Nat
  dispatchCount : Nat
deriving DecidableEq

variable {V : Type} [Inhabited V] [DecidableEq V]

/-- `Input.inputValue`: the staged value, else the confirmed value. -/
def inputValueGet (st : St V) (inp : Nat) : V :=
  (st.inputValue.getD inp none).getD (st.value.getD inp default)

/-- `Input.isPending`: a staged value is present. -/
def isPendingGet (st : St V) (inp : Nat) : Bool :=
  (st.inputValue.getD inp none).isSome

/-- `Input.hasChanged`: pending and staged value differs from confirmed. -/
def hasChangedGet (st : St V) (inp : Nat) : Bool :=
  match st.inputValue.getD inp none with
  | none => false
  | some x => decide (x ≠ st.value.getD inp default)

/-- `Validator.validate` with a synchronous domain action: mark
`hasEverValidated`; on parse failure return without invoking the domain
task; otherwise invoke it (counted). -/
def validatorValidate (sys : Sys V) (st : St V) (v : Nat) : St V :=
  if sys.parseError v
      ((sys.inputsOf v).map (fun i => st.value.getD i default))
  then { st with hasEverValidated := st.hasEverValidated.set v true }
  else { st with hasEverValidated := st.hasEverValidated.set v true,
                 invokeCount :=
                   st.invokeCount.set v (st.invokeCount.getD v 0 + 1) }

/-- The per-validator body of the `Input.validate` sweep, threading state,
the enabled-tracking `set`, and whether any tracked state changed.
(`isValidationPending` is always false for synchronous domain actions, so
the pending early-await branch never fires.) -/
def sweepCandidate (sys : Sys V) (filter : Filter) (v : Nat) : Bool :=
  match filter with
  | Filter.noneF => true
  | Filter.inputF => sys.validateOnInput v
  | Filter.confirmF => !sys.validateOnInput v

def sweepStep (sys : Sys V) (filter : Filter)
    (acc : St V × List Nat × Bool) (v : Nat) : St V × List Nat × Bool :=
  if !sweepCandidate sys filter v then acc
  else if sys.enabled v then
    ((if acc.2.1.contains v != sys.enabled v
      then validatorValidate sys acc.1 v else acc.1),
     (if acc.2.1.contains v then acc.2.1 else v :: acc.2.1),
     acc.2.2 || (acc.2.1.contains v != sys.enabled v))
  else (acc.1, acc.2.1.erase v,
    acc.2.2 || (acc.2.1.contains v != sys.enabled v))

/-- One pass of the `Input.validate` sweep over the input's validators. -/
def sweepOnce (sys : Sys V) (st : St V) (inp : Nat) (filter : Filter)
    (track : List Nat) : St V × List Nat × Bool :=
  (sys.validatorsOf inp).foldl (sweepStep sys filter) (st, track, false)

/-- The `while (true)` loop of `Input.validate`: sweep until a full pass
changes nothing.  `fuel` bounds the number of passes; with
state-independent enabled predicates two passes always suffice.  (The
`validationId` supersession guard never fires in this sequential model.) -/
def sweepLoop (sys : Sys V) :
    Nat → St V → Nat → Filter → List Nat → St V
  | 0, st, _, _, _ => st
  | fuel + 1, st, inp, filter, track =>
    let out := sweepOnce sys st inp filter track
    if out.2.2 then sweepLoop sys fuel out.1 inp filter out.2.1 else out.1

/-- `Input.validate(filter)`. -/
def inputValidate (sys : Sys V) (st : St V) (inp : Nat) (filter : Filter) :
    St V :=
  sweepLoop sys ((sys.validatorsOf inp).length + 2) st inp filter []

/-- `Input.input(value)`: rejected while being submitted; otherwise stage
the value and validate with the `"input"` filter. -/
def inputMethod (sys : Sys V) (st : St V) (inp : Nat) (v : Option V) : St V :=
  if st.beingSubmitted.getD inp false then st
  else
    let st1 := { st with inputValue := st.inputValue.set inp v }
    inputValidate sys st1 inp Filter.inputF

/-- `Input.confirm({value})`, following the source line by line; `fuel`
bounds the `confirmCascade` nesting depth (the source recursion is
unbounded).  The `next` tail is not modelled (all modelled calls pass no
`next`). -/
def confirm (sys : Sys V) : Nat → St V → Nat → Option V → St V
  | 0, st, _, _ => st
  | fuel + 1, st, inp, argValue =>
    if st.beingSubmitted.getD inp false then st
    else
      let lastValue := inputValueGet st inp
      let st1 := { st with inputValue := st.inputValue.set inp none }
      let value := argValue.getD lastValue
      -- Source guard: `if (deepEqual(value, this._inputValue) && !this.isConfirmed) return;`
      -- `_inputValue` was just cleared to undefined while `value` is a
      -- present value here, so the comparison is identically false and the
      -- guard never fires.
      if ((none : Option V) == some value) && !(st1.isConfirmed.getD inp false)
      then st1
      else
        let value := match sys.normalizer inp with
          | none => value
          | some f => f value
        let st2 := { st1 with isConfirmed := st1.isConfirmed.set inp true }
        let shouldValidate :=
          (match sys.revalidate inp with
            | none => fun a b => decide (a ≠ b)
            | some f => f) value (st2.value.getD inp default)
        let st3 := { st2 with value := st2.value.set inp value }
        let isRoot := st3.stackDepth == 0
        let st4 := if shouldValidate
          then { st3 with candidates := st3.candidates ++ [inp] } else st3
        let st5 := match sys.cascade inp with
          | none => st4
          | some calls =>
            let stIn := { st4 with stackDepth := st4.stackDepth + 1 }
            let stOut := calls.foldl
              (fun st c => confirm sys fuel st c.1 (some c.2)) stIn
            { stOut with stackDepth := stOut.stackDepth - 1 }
        if !isRoot then st5
        else
          let inputsToValidate := st5.candidates
          let st6 := { st5 with candidates := [],
                                dispatchCount := st5.dispatchCount + 1 }
          inputsToValidate.foldl
            (fun st i => inputValidate sys st i Filter.confirmF) st6

/-- The C2 scenario: inputs A (0) and B (1), one shared validator (0)
over both, `confirmCascade` on A confirming B with a new value, default
`revalidate`, parse always succeeding, synchronous domain action. -/
def sysC2 : Sys Nat where
  validatorsOf := fun i => [[0], [0]].getD i []
  inputsOf := fun v => [[0, 1]].getD v []
  revalidate := fun _ => none
  normalizer := fun _ => none
  cascade := fun i => if i == 0 then some [(1, 7)] else none
  enabled := fun _ => true
  validateOnInput := fun _ => false
  parseError := fun _ _ => false

/-- Both inputs unconfirmed at value 0, validator never run. -/
def st0C2 : St Nat :=
  ⟨[0, 0], [none, none], [false, false], [false, false], [false], [0], 0, [], 0⟩

/-- The single call `A.confirm({value: 5})` of the C2 scenario. -/
def runC2 : St Nat := confirm sysC2 4 st0C2 0 (some 5)

/-- C2 counterexample: after the single `A.confirm`, the validator shared
by A and B has had its domain task invoked twice — once from A's
`validate` sweep and once from B's — refuting "validated exactly once".
(Both confirmed values were committed, so the batch did contain A and B.) -/
theorem cascade_shared_validator_validated_twice :
    runC2.invokeCount.getD 0 0 = 2 ∧ ¬ runC2.invokeCount.getD 0 0 = 1 ∧
      runC2.value = [5, 7] := by decide

/-- C2 amended: a single `A.confirm` issues exactly one batched validation
dispatch (only the outermost confirm call dispatches — the nested
cascade confirm of B adds none), and within that batch the shared
validator is validated once per batched input depending on it (twice
here), not once in total. -/
theorem cascade_single_dispatch_once_per_input :
    runC2.dispatchCount = 1 ∧ runC2.invokeCount.getD 0 0 = 2 := by decide

/-- The C5 scenario: one input (0) with one validator (0) and a
`revalidate` predicate that always asks to re-validate; the input is
already confirmed at value 1. -/
def sysC5 : Sys Nat where
  validatorsOf := fun i => [[0]].getD i []
  inputsOf := fun v => [[0]].getD v []
  revalidate := fun i => if i == 0 then some (fun _ _ => true) else none
  normalizer := fun _ => none
  cascade := fun _ => none
  enabled := fun _ => true
  validateOnInput := fun _ => false
  parseError := fun _ _ => false

/-- Already confirmed at value 1, no staged edit, validator never run. -/
def st0C5 : St Nat := ⟨[1], [none], [true], [false], [false], [0], 0, [], 0⟩

/-- Re-confirming the already-confirmed value 1: `confirm({value: 1})`. -/
def runC5 : St Nat := confirm sysC5 2 st0C5 0 (some 1)

/-- C5, evaluating the code at the failing input: the input is already
confirmed with value 1 and is re-confirmed with the same value 1, yet the
validator's domain task runs (once) — the call is not the documented
no-op, because the source's guard compares the resolved value against the
just-cleared `_inputValue` (i.e. against undefined) and negates
`isConfirmed`, so it never fires here. -/
theorem confirm_same_value_still_revalidates :
    st0C5.isConfirmed.getD 0 false = true ∧
      (st0C5.value.getD 0 0 : Nat) = 1 ∧
      runC5.invokeCount.getD 0 0 = 1 ∧
      runC5.dispatchCount = 1 := by decide

omit [DecidableEq V] in
theorem validatorValidate_value (sys : Sys V) (st : St V) (v : Nat) :
    (validatorValidate sys st v).value = st.value := by
  unfold validatorValidate
  split <;> rfl

omit [DecidableEq V] in
theorem validatorValidate_inputValue (sys : Sys V) (st : St V) (v : Nat) :
    (validatorValidate sys st v).inputValue = st.inputValue := by
  unfold validatorValidate
  split <;> rfl

omit [DecidableEq V] in
theorem sweepStep_value (sys : Sys V) (filter : Filter)
    (acc : St V × List Nat × Bool) (v : Nat) :
    (sweepStep sys filter acc v).1.value = acc.1.value := by
  unfold sweepStep
  repeat' split
  all_goals simp [validatorValidate_value]

omit [DecidableEq V] in
theorem sweepStep_inputValue (sys : Sys V) (filter : Filter)
    (acc : St V × List Nat × Bool) (v : Nat) :
    (sweepStep sys filter acc v).1.inputValue = acc.1.inputValue := by
  unfold sweepStep
  repeat' split
  all_goals simp [validatorValidate_inputValue]

omit [DecidableEq V] in
theorem foldl_sweepStep_value (sys : Sys V) (filter : Filter)
    (l : List Nat) (acc : St V × List Nat × Bool) :
    (l.foldl (sweepStep sys filter) acc).1.value = acc.1.value := by
  induction l generalizing acc with
  | nil => rfl
  | cons v l ih => rw [List.foldl_cons, ih, sweepStep_value]

omit [DecidableEq V] in
theorem foldl_sweepStep_inputValue (sys : Sys V) (filter : Filter)
    (l : List Nat) (acc : St V × List Nat × Bool) :
    (l.foldl (sweepStep sys filter) acc).1.inputValue = acc.1.inputValue := by
  induction l generalizing acc with
  | nil => rfl
  | cons v l ih => rw [List.foldl_cons, ih, sweepStep_inputValue]

omit [DecidableEq V] in
theorem sweepLoop_value (sys : Sys V) (fuel : Nat) (st : St V) (inp : Nat)
    (filter : Filter) (track : List Nat) :
    (sweepLoop sys fuel st inp filter track).value = st.value := by
  induction fuel generalizing st track with
  | zero => rfl
  | succ n ih =>
    show (if _ then sweepLoop sys n _ inp filter _ else _).value = _
    split
    · rw [ih]
      exact foldl_sweepStep_value sys filter _ _
    · exact foldl_sweepStep_value sys filter _ _

omit [DecidableEq V] in
theorem sweepLoop_inputValue (sys : Sys V) (fuel : Nat) (st : St V)
    (inp : Nat) (filter : Filter) (track : List Nat) :
    (sweepLoop sys fuel st inp filter track).inputValue = st.inputValue := by
  induction fuel generalizing st track with
  | zero => rfl
  | succ n ih =>
    show (if _ then sweepLoop sys n _ inp filter _ else _).inputValue = _
    split
    · rw [ih]
      exact foldl_sweepStep_inputValue sys filter _ _
    · exact foldl_sweepStep_inputValue sys filter _ _

omit [DecidableEq V] in
theorem inputValidate_value (sys : Sys V) (st : St V) (inp : Nat)
    (filter : Filter) : (inputValidate sys st inp filter).value = st.value :=
  sweepLoop_value sys _ st inp filter []

omit [DecidableEq V] in
theorem inputValidate_inputValue (sys : Sys V) (st : St V) (inp : Nat)
    (filter : Filter) :
    (inputValidate sys st inp filter).inputValue = st.inputValue :=
  sweepLoop_inputValue sys _ st inp filter []

/-- The system for the C10 scenario: a lone input with no validators. -/
def sysC10 : Sys Nat where
  validatorsOf := fun _ => []
  inputsOf := fun _ => []
  revalidate := fun _ => none
  normalizer := fun _ => none
  cascade := fun _ => none
  enabled := fun _ => true
  validateOnInput := fun _ => false
  parseError := fun _ _ => false

/-- An input with a staged edit (`some 1`) whose owning form is currently
submitting. -/
def stC10 : St Nat := ⟨[0], [some 1], [false], [true], [], [], 0, [], 0⟩

/-- C10 counterexample: while the owning form is submitting, `input()` is
a no-op, so `input(undefined)` on an input with a staged edit leaves
`isPending = true` — the claim's unconditional "isPending is false after
input(undefined)" fails. -/
theorem input_undefined_while_submitting_stays_pending :
    stC10.beingSubmitted.getD 0 false = true ∧
      isPendingGet (inputMethod sysC10 stC10 0 none) 0 = true := by decide

/-- C10 amended: for an input whose owning forms are not submitting,
`input(undefined)` clears the staged slot: afterwards `isPending` and
`hasChanged` are false and `inputValue` returns the (unchanged) confirmed
value — undefined is not representable as a staged value. -/
theorem input_undefined_clears_staged (sys : Sys V) (st : St V) (inp : Nat)
    (hsub : st.beingSubmitted.getD inp false = false)
    (hlen : inp < st.inputValue.length) :
    isPendingGet (inputMethod sys st inp none) inp = false ∧
      hasChangedGet (inputMethod sys st inp none) inp = false ∧
      inputValueGet (inputMethod sys st inp none) inp =
        st.value.getD inp default ∧
      (inputMethod sys st inp none).value = st.value := by
  have hrun : inputMethod sys st inp none =
      inputValidate sys { st with inputValue := st.inputValue.set inp none }
        inp Filter.inputF := by
    unfold inputMethod
    rw [hsub]
    rfl
  have hIV : (inputMethod sys st inp none).inputValue =
      st.inputValue.set inp none := by
    rw [hrun, inputValidate_inputValue]
  have hVal : (inputMethod sys st inp none).value = st.value := by
    rw [hrun, inputValidate_value]
  have hgetD : (st.inputValue.set inp none).getD inp none = (none : Option V) := by
    have h2 : inp < (st.inputValue.set inp none).length := by simpa using hlen
    rw [List.getD_eq_getElem _ _ h2]
    simp
  refine ⟨?_, ?_, ?_, hVal⟩
  · unfold isPendingGet
    rw [hIV, hgetD]
    rfl
  · unfold hasChangedGet
    rw [hIV, hgetD]
  · unfold inputValueGet
    rw [hIV, hgetD, hVal]
    rfl

/-- Witness for the amended C10: a concrete non-submitting input with a
staged edit; `input(undefined)` leaves it indistinguishable from a
pristine one. -/
theorem input_undefined_clears_staged_witness :
    (⟨[3], [some 1], [false], [false], [], [], 0, [], 0⟩ :
        St Nat).beingSubmitted.getD 0 false = false ∧
      isPendingGet
        (inputMethod sysC10
          ⟨[3], [some 1], [false], [false], [], [], 0, [], 0⟩ 0 none) 0 =
        false :=
  ⟨by decide,
    (input_undefined_clears_staged sysC10
      ⟨[3], [some 1], [false], [false], [], [], 0, [], 0⟩ 0 (by decide)
      (by decide)).1⟩

end InputConfirm

namespace NestedModel

/-!
`Validator.nestedValidators` / `collectNestedValidators` of
`src/state/Validator.ts` over the input↔validator bipartite graph.
The source recursion

```
collectNestedValidators(validator, buffer, result):
  for input in validator.flattedInputs:
    if buffer.has(input): continue
    for v of input.validators:
      if result.has(v): continue
      result.add(v); collectNestedValidators(v, buffer, result)
```

is embedded with the two loops as the mutually recursive list walkers
`goInputs` (outer loop over `flattedInputs`) and `goVals` (inner loop over
`input.validators`), threading the `result` accumulator.  The JS recursion
carries no fuel; its call depth is bounded because every recursive call is
preceded by inserting a new validator into `result`.  Here `fuel` bounds
that depth, and the main theorem shows that any `fuel ≥ |V|` yields the
same, correct result — which is the termination claim in fuel form.
(`buffer` is threaded faithfully; the source never adds to it, and
`nestedValidators` passes a fresh empty set, so membership tests on it
are immaterial at the top level.) -/

variable {V I : Type} [DecidableEq V] [DecidableEq I]

/-- The bipartite graph: `inputsOf` is a validator's `flattedInputs`,
`validatorsOf` an input's back-referenced `validators`. -/
structure BGraph (V I : Type) where
  inputsOf : V → List I
  validatorsOf : I → List V

mutual

def goInputs (G : BGraph V I) : Nat → List I → Finset I → Finset V → Finset V
  | _, [], _, res => res
  | fuel, i :: rest, b, res =>
    goInputs G fuel rest b
      (if i ∈ b then res else goVals G fuel (G.validatorsOf i) b res)
  termination_by fuel is _ _ => (fuel, 1, is.length)

def goVals (G : BGraph V I) : Nat → List V → Finset I → Finset V → Finset V
  | _, [], _, res => res
  | 0, w :: rest, b, res =>
    goVals G 0 rest b (if w ∈ res then res else insert w res)
  | f + 1, w :: rest, b, res =>
    goVals G (f + 1) rest b
      (if w ∈ res then res
       else goInputs G f (G.inputsOf w) b (insert w res))
  termination_by fuel ws _ _ => (fuel, 0, ws.length)

end

/-- `collectNestedValidators(validator, buffer, result)`. -/
def collectNested (G : BGraph V I) (fuel : Nat) (v : V) (b : Finset I)
    (res : Finset V) : Finset V :=
  goInputs G fuel (G.inputsOf v) b res

/-- `Validator.nestedValidators`: collect from `this` with fresh empty
buffer and result, then delete `this`. -/
def nestedValidators (G : BGraph V I) (fuel : Nat) (v : V) : Finset V :=
  (collectNested G fuel v ∅ ∅).erase v

/-- One traversal step avoiding buffered inputs: `w` is a validator of a
non-buffered input of `v`. -/
def StepB (G : BGraph V I) (b : Finset I) (v w : V) : Prop :=
  ∃ i ∈ G.inputsOf v, i ∉ b ∧ w ∈ G.validatorsOf i

/-- The connectivity step of the input↔validator graph: `v` and `w` share
an input (`w` is a validator of one of `v`'s inputs). -/
def StepRel (G : BGraph V I) (v w : V) : Prop :=
  ∃ i ∈ G.inputsOf v, w ∈ G.validatorsOf i

omit [DecidableEq V] [DecidableEq I] in
theorem stepB_empty_iff (G : BGraph V I) (v w : V) :
    StepB G ∅ v w ↔ StepRel G v w := by
  unfold StepB StepRel
  constructor
  · rintro ⟨i, hi, -, hw⟩
    exact ⟨i, hi, hw⟩
  · rintro ⟨i, hi, hw⟩
    exact ⟨i, hi, Finset.not_mem_empty i, hw⟩

theorem goVals_nil (G : BGraph V I) (fuel : Nat) (b : Finset I)
    (res : Finset V) : goVals G fuel [] b res = res := by
  rw [goVals]

theorem goVals_cons_zero (G : BGraph V I) (w : V) (rest : List V)
    (b : Finset I) (res : Finset V) :
    goVals G 0 (w :: rest) b res =
      goVals G 0 rest b (if w ∈ res then res else insert w res) := by
  rw [goVals]

theorem goVals_cons_succ (G : BGraph V I) (f : Nat) (w : V) (rest : List V)
    (b : Finset I) (res : Finset V) :
    goVals G (f + 1) (w :: rest) b res =
      goVals G (f + 1) rest b
        (if w ∈ res then res
         else goInputs G f (G.inputsOf w) b (insert w res)) := by
  rw [goVals]

theorem goInputs_nil (G : BGraph V I) (fuel : Nat) (b : Finset I)
    (res : Finset V) : goInputs G fuel [] b res = res := by
  rw [goInputs]

theorem goInputs_cons (G : BGraph V I) (fuel : Nat) (i : I) (rest : List I)
    (b : Finset I) (res : Finset V) :
    goInputs G fuel (i :: rest) b res =
      goInputs G fuel rest b
        (if i ∈ b then res else goVals G fuel (G.validatorsOf i) b res) := by
  rw [goInputs]

/-- The result accumulator only ever grows. -/
theorem subset_out (G : BGraph V I) :
    ∀ fuel : Nat,
      (∀ (ws : List V) (b : Finset I) (res : Finset V),
        res ⊆ goVals G fuel ws b res) ∧
      (∀ (l : List I) (b : Finset I) (res : Finset V),
        res ⊆ goInputs G fuel l b res) := by
  intro fuel
  induction fuel with
  | zero =>
    have hv : ∀ (ws : List V) (b : Finset I) (res : Finset V),
        res ⊆ goVals G 0 ws b res := by
      intro ws
      induction ws with
      | nil =>
        intro b res
        rw [goVals_nil]
      | cons w rest ih =>
        intro b res
        rw [goVals_cons_zero]
        by_cases hw : w ∈ res
        · rw [if_pos hw]
          exact ih b res
        · rw [if_neg hw]
          exact (Finset.subset_insert w res).trans (ih b _)
    refine ⟨hv, ?_⟩
    intro l
    induction l with
    | nil =>
      intro b res
      rw [goInputs_nil]
    | cons i rest ih =>
      intro b res
      rw [goInputs_cons]
      by_cases hi : i ∈ b
      · rw [if_pos hi]
        exact ih b res
      · rw [if_neg hi]
        exact (hv _ b res).trans (ih b _)
  | succ f ihf =>
    have hv : ∀ (ws : List V) (b : Finset I) (res : Finset V),
        res ⊆ goVals G (f + 1) ws b res := by
      intro ws
      induction ws with
      | nil =>
        intro b res
        rw [goVals_nil]
      | cons w rest ih =>
        intro b res
        rw [goVals_cons_succ]
        by_cases hw : w ∈ res
        · rw [if_pos hw]
          exact ih b res
        · rw [if_neg hw]
          exact ((Finset.subset_insert w res).trans (ihf.2 _ b _)).trans (ih b _)
    refine ⟨hv, ?_⟩
    intro l
    induction l with
    | nil =>
      intro b res
      rw [goInputs_nil]
    | cons i rest ih =>
      intro b res
      rw [goInputs_cons]
      by_cases hi : i ∈ b
      · rw [if_pos hi]
        exact ih b res
      · rw [if_neg hi]
        exact (hv _ b res).trans (ih b _)

theorem res_subset_goVals (G : BGraph V I) (fuel : Nat) (ws : List V)
    (b : Finset I) (res : Finset V) : res ⊆ goVals G fuel ws b res :=
  (subset_out G fuel).1 ws b res

theorem res_subset_goInputs (G : BGraph V I) (fuel : Nat) (l : List I)
    (b : Finset I) (res : Finset V) : res ⊆ goInputs G fuel l b res :=
  (subset_out G fuel).2 l b res

/-- Every validator on the walked list ends up in the result. -/
theorem mem_goVals_self (G : BGraph V I) :
    ∀ (fuel : Nat) (ws : List V) (b : Finset I) (res : Finset V),
      ∀ w ∈ ws, w ∈ goVals G fuel ws b res := by
  intro fuel ws
  induction ws with
  | nil =>
    intro b res w hw
    cases hw
  | cons x rest ih =>
    intro b res w hw
    rcases List.mem_cons.mp hw with rfl | hw2
    · cases fuel with
      | zero =>
        rw [goVals_cons_zero]
        refine Finset.mem_of_subset (res_subset_goVals G 0 rest b _) ?_
        by_cases hx : w ∈ res
        · rw [if_pos hx]
          exact hx
        · rw [if_neg hx]
          exact Finset.mem_insert_self w res
      | succ f =>
        rw [goVals_cons_succ]
        refine Finset.mem_of_subset (res_subset_goVals G (f + 1) rest b _) ?_
        by_cases hx : w ∈ res
        · rw [if_pos hx]
          exact hx
        · rw [if_neg hx]
          exact Finset.mem_of_subset (res_subset_goInputs G f _ b _)
            (Finset.mem_insert_self w res)
    · cases fuel with
      | zero =>
        rw [goVals_cons_zero]
        exact ih b _ w hw2
      | succ f =>
        rw [goVals_cons_succ]
        exact ih b _ w hw2

/-- One-level completeness of the outer loop: every validator of a
non-buffered walked input ends up in the result. -/
theorem mem_goInputs_of_validator (G : BGraph V I) :
    ∀ (fuel : Nat) (l : List I) (b : Finset I) (res : Finset V) (i : I),
      i ∈ l → i ∉ b → ∀ w ∈ G.validatorsOf i, w ∈ goInputs G fuel l b res := by
  intro fuel l
  induction l with
  | nil =>
    intro b res i hi
    cases hi
  | cons j rest ih =>
    intro b res i hi hib w hw
    rw [goInputs_cons]
    rcases List.mem_cons.mp hi with rfl | hi2
    · rw [if_neg hib]
      exact Finset.mem_of_subset (res_subset_goInputs G fuel rest b _)
        (mem_goVals_self G fuel _ b res w hw)
    · exact ih b _ i hi2 hib w hw

/-- Soundness: everything collected is reflexive-transitively reachable
(avoiding buffered inputs) from a validator of the walked lists. -/
theorem sound (G : BGraph V I) :
    ∀ fuel : Nat,
      (∀ (ws : List V) (b : Finset I) (res : Finset V) (x : V),
        x ∈ goVals G fuel ws b res →
          x ∈ res ∨ ∃ w ∈ ws, Relation.ReflTransGen (StepB G b) w x) ∧
      (∀ (l : List I) (b : Finset I) (res : Finset V) (x : V),
        x ∈ goInputs G fuel l b res →
          x ∈ res ∨ ∃ i ∈ l, i ∉ b ∧ ∃ w ∈ G.validatorsOf i,
            Relation.ReflTransGen (StepB G b) w x) := by
  intro fuel
  induction fuel with
  | zero =>
    have hv : ∀ (ws : List V) (b : Finset I) (res : Finset V) (x : V),
        x ∈ goVals G 0 ws b res →
          x ∈ res ∨ ∃ w ∈ ws, Relation.ReflTransGen (StepB G b) w x := by
      intro ws
      induction ws with
      | nil =>
        intro b res x hx
        rw [goVals_nil] at hx
        exact Or.inl hx
      | cons w rest ih =>
        intro b res x hx
        rw [goVals_cons_zero] at hx
        rcases ih b _ x hx with hx2 | ⟨w2, hw2, hr⟩
        · by_cases hw : w ∈ res
          · rw [if_pos hw] at hx2
            exact Or.inl hx2
          · rw [if_neg hw] at hx2
            rcases Finset.mem_insert.mp hx2 with rfl | hx3
            · exact Or.inr ⟨x, List.mem_cons_self x rest,
                Relation.ReflTransGen.refl⟩
            · exact Or.inl hx3
        · exact Or.inr ⟨w2, List.mem_cons_of_mem w hw2, hr⟩
    refine ⟨hv, ?_⟩
    intro l
    induction l with
    | nil =>
      intro b res x hx
      rw [goInputs_nil] at hx
      exact Or.inl hx
    | cons i rest ih =>
      intro b res x hx
      rw [goInputs_cons] at hx
      rcases ih b _ x hx with hx2 | ⟨i2, hi2, hib2, w2, hw2, hr⟩
      · by_cases hi : i ∈ b
        · rw [if_pos hi] at hx2
          exact Or.inl hx2
        · rw [if_neg hi] at hx2
          rcases hv _ b res x hx2 with hx3 | ⟨w2, hw2, hr⟩
          · exact Or.inl hx3
          · exact Or.inr ⟨i, List.mem_cons_self i rest, hi, w2, hw2, hr⟩
      · exact Or.inr ⟨i2, List.mem_cons_of_mem i hi2, hib2, w2, hw2, hr⟩
  | succ f ihf =>
    have hv : ∀ (ws : List V) (b : Finset I) (res : Finset V) (x : V),
        x ∈ goVals G (f + 1) ws b res →
          x ∈ res ∨ ∃ w ∈ ws, Relation.ReflTransGen (StepB G b) w x := by
      intro ws
      induction ws with
      | nil =>
        intro b res x hx
        rw [goVals_nil] at hx
        exact Or.inl hx
      | cons w rest ih =>
        intro b res x hx
        rw [goVals_cons_succ] at hx
        rcases ih b _ x hx with hx2 | ⟨w2, hw2, hr⟩
        · by_cases hw : w ∈ res
          · rw [if_pos hw] at hx2
            exact Or.inl hx2
          · rw [if_neg hw] at hx2
            rcases ihf.2 _ b _ x hx2 with hx3 | ⟨i, hi, hib, w2, hw2, hr⟩
            · rcases Finset.mem_insert.mp hx3 with rfl | hx4
              · exact Or.inr ⟨x, List.mem_cons_self x rest,
                  Relation.ReflTransGen.refl⟩
              · exact Or.inl hx4
            · exact Or.inr ⟨w, List.mem_cons_self w rest,
                Relation.ReflTransGen.head ⟨i, hi, hib, hw2⟩ hr⟩
        · exact Or.inr ⟨w2, List.mem_cons_of_mem w hw2, hr⟩
    refine ⟨hv, ?_⟩
    intro l
    induction l with
    | nil =>
      intro b res x hx
      rw [goInputs_nil] at hx
      exact Or.inl hx
    | cons i rest ih =>
      intro b res x hx
      rw [goInputs_cons] at hx
      rcases ih b _ x hx with hx2 | ⟨i2, hi2, hib2, w2, hw2, hr⟩
      · by_cases hi : i ∈ b
        · rw [if_pos hi] at hx2
          exact Or.inl hx2
        · rw [if_neg hi] at hx2
          rcases hv _ b res x hx2 with hx3 | ⟨w2, hw2, hr⟩
          · exact Or.inl hx3
          · exact Or.inr ⟨i, List.mem_cons_self i rest, hi, w2, hw2, hr⟩
      · exact Or.inr ⟨i2, List.mem_cons_of_mem i hi2, hib2, w2, hw2, hr⟩

theorem card_sdiff_le_of_subset [Fintype V] {res X : Finset V}
    (h : res ⊆ X) :
    (Finset.univ \ X).card ≤ (Finset.univ \ res).card :=
  Finset.card_le_card (Finset.sdiff_subset_sdiff (Finset.Subset.refl _) h)

theorem card_sdiff_insert_lt [Fintype V] {res : Finset V} {w : V}
    (hw : w ∉ res) :
    (Finset.univ \ insert w res).card + 1 ≤ (Finset.univ \ res).card := by
  rw [Finset.sdiff_insert, Finset.card_erase_of_mem
    (Finset.mem_sdiff.mpr ⟨Finset.mem_univ w, hw⟩)]
  have hpos : 0 < (Finset.univ \ res).card :=
    Finset.card_pos.mpr ⟨w, Finset.mem_sdiff.mpr ⟨Finset.mem_univ w, hw⟩⟩
  omega

/-- Expansion completeness: with enough fuel for the validators still
missing from the accumulator, every validator NEWLY added by a walk has
all its one-step successors in the walk's result. -/
theorem expand (G : BGraph V I) [Fintype V] :
    ∀ fuel : Nat,
      (∀ (ws : List V) (b : Finset I) (res : Finset V),
        (Finset.univ \ res).card ≤ fuel →
        ∀ u ∈ goVals G fuel ws b res, u ∉ res →
        ∀ x, StepB G b u x → x ∈ goVals G fuel ws b res) ∧
      (∀ (l : List I) (b : Finset I) (res : Finset V),
        (Finset.univ \ res).card ≤ fuel →
        ∀ u ∈ goInputs G fuel l b res, u ∉ res →
        ∀ x, StepB G b u x → x ∈ goInputs G fuel l b res) := by
  intro fuel
  induction fuel with
  | zero =>
    have hv : ∀ (ws : List V) (b : Finset I) (res : Finset V),
        (Finset.univ \ res).card ≤ 0 →
        ∀ u ∈ goVals G 0 ws b res, u ∉ res →
        ∀ x, StepB G b u x → x ∈ goVals G 0 ws b res := by
      intro ws
      induction ws with
      | nil =>
        intro b res _ u hu hu2 x _
        rw [goVals_nil] at hu
        exact absurd hu hu2
      | cons w rest ih =>
        intro b res hcard u hu hu2 x hstep
        have hempty : Finset.univ \ res = (∅ : Finset V) :=
          Finset.card_eq_zero.mp (Nat.le_zero.mp hcard)
        by_cases hw : w ∈ res
        · rw [goVals_cons_zero, if_pos hw] at hu ⊢
          exact ih b res hcard u hu hu2 x hstep
        · exact absurd (hempty ▸ Finset.mem_sdiff.mpr
            ⟨Finset.mem_univ w, hw⟩) (Finset.not_mem_empty w)
    refine ⟨hv, ?_⟩
    intro l
    induction l with
    | nil =>
      intro b res _ u hu hu2 x _
      rw [goInputs_nil] at hu
      exact absurd hu hu2
    | cons i rest ih =>
      intro b res hcard u hu hu2 x hstep
      rw [goInputs_cons] at hu ⊢
      by_cases huX :
          u ∈ (if i ∈ b then res else goVals G 0 (G.validatorsOf i) b res)
      · by_cases hi : i ∈ b
        · rw [if_pos hi] at huX
          exact absurd huX hu2
        · rw [if_neg hi] at huX ⊢
          refine Finset.mem_of_subset (res_subset_goInputs G 0 rest b _) ?_
          exact hv _ b res hcard u huX hu2 x hstep
      · refine ih b _ ?_ u hu huX x hstep
        refine Nat.le_trans (card_sdiff_le_of_subset ?_) hcard
        by_cases hi : i ∈ b
        · rw [if_pos hi]
        · rw [if_neg hi]
          exact res_subset_goVals G 0 _ b res
  | succ f ihf =>
    have hv : ∀ (ws : List V) (b : Finset I) (res : Finset V),
        (Finset.univ \ res).card ≤ f + 1 →
        ∀ u ∈ goVals G (f + 1) ws b res, u ∉ res →
        ∀ x, StepB G b u x → x ∈ goVals G (f + 1) ws b res := by
      intro ws
      induction ws with
      | nil =>
        intro b res _ u hu hu2 x _
        rw [goVals_nil] at hu
        exact absurd hu hu2
      | cons w rest ih =>
        intro b res hcard u hu hu2 x hstep
        by_cases hw : w ∈ res
        · rw [goVals_cons_succ, if_pos hw] at hu ⊢
          exact ih b res hcard u hu hu2 x hstep
        · rw [goVals_cons_succ, if_neg hw] at hu ⊢
          have hcard2 : (Finset.univ \ insert w res).card ≤ f := by
            have := card_sdiff_insert_lt hw
            omega
          have hXsup : insert w res ⊆
              goInputs G f (G.inputsOf w) b (insert w res) :=
            res_subset_goInputs G f _ b _
          have hcardX : (Finset.univ \
              goInputs G f (G.inputsOf w) b (insert w res)).card ≤ f + 1 :=
            Nat.le_trans (Nat.le_trans (card_sdiff_le_of_subset hXsup)
              hcard2) (Nat.le_succ f)
          by_cases huX : u ∈ goInputs G f (G.inputsOf w) b (insert w res)
          · by_cases huw : u = w
            · subst huw
              obtain ⟨i, hi, hib, hx⟩ := hstep
              refine Finset.mem_of_subset
                (res_subset_goVals G (f + 1) rest b _) ?_
              exact mem_goInputs_of_validator G f _ b _ i hi hib x hx
            · have hu3 : u ∉ insert w res := by
                intro hcontra
                rcases Finset.mem_insert.mp hcontra with rfl | h
                · exact huw rfl
                · exact hu2 h
              refine Finset.mem_of_subset
                (res_subset_goVals G (f + 1) rest b _) ?_
              exact ihf.2 _ b _ hcard2 u huX hu3 x hstep
          · exact ih b _ hcardX u hu huX x hstep
    refine ⟨hv, ?_⟩
    intro l
    induction l with
    | nil =>
      intro b res _ u hu hu2 x _
      rw [goInputs_nil] at hu
      exact absurd hu hu2
    | cons i rest ih =>
      intro b res hcard u hu hu2 x hstep
      rw [goInputs_cons] at hu ⊢
      by_cases huX :
          u ∈ (if i ∈ b then res
               else goVals G (f + 1) (G.validatorsOf i) b res)
      · by_cases hi : i ∈ b
        · rw [if_pos hi] at huX
          exact absurd huX hu2
        · rw [if_neg hi] at huX ⊢
          refine Finset.mem_of_subset
            (res_subset_goInputs G (f + 1) rest b _) ?_
          exact hv _ b res hcard u huX hu2 x hstep
      · refine ih b _ ?_ u hu huX x hstep
        refine Nat.le_trans (card_sdiff_le_of_subset ?_) hcard
        by_cases hi : i ∈ b
        · rw [if_pos hi]
        · rw [if_neg hi]
          exact res_subset_goVals G (f + 1) _ b res

/-- With fuel at least the number of validators, the collection from `v`
(fresh buffer and result, as `nestedValidators` calls it) contains exactly
the validators reachable from `v` in one or more steps. -/
theorem collect_mem_iff (G : BGraph V I) [Fintype V] (fuel : Nat)
    (hfuel : Fintype.card V ≤ fuel) (v x : V) :
    x ∈ collectNested G fuel v ∅ ∅ ↔
      Relation.TransGen (StepRel G) v x := by
  constructor
  · intro hx
    rcases (sound G fuel).2 (G.inputsOf v) ∅ ∅ x hx with
      hx0 | ⟨i, hi, -, w, hw, hr⟩
    · exact absurd hx0 (Finset.not_mem_empty x)
    · have hr2 : Relation.ReflTransGen (StepRel G) w x :=
        Relation.ReflTransGen.mono
          (fun a b hab => (stepB_empty_iff G a b).mp hab) hr
      exact Relation.TransGen.head' ⟨i, hi, hw⟩ hr2
  · intro hx
    induction hx with
    | single hstep =>
      obtain ⟨i, hi, hxv⟩ := hstep
      exact mem_goInputs_of_validator G fuel _ ∅ ∅ i hi
        (Finset.not_mem_empty i) _ hxv
    | tail hpath hstep ih =>
      have hcard : (Finset.univ \ (∅ : Finset V)).card ≤ fuel := by
        rw [Finset.sdiff_empty, Finset.card_univ]
        exact hfuel
      exact (expand G fuel).2 (G.inputsOf v) ∅ ∅ hcard _ ih
        (Finset.not_mem_empty _) _ ((stepB_empty_iff G _ _).mpr hstep)

/-- C4: for every finite input↔validator graph, including cyclic ones, the
`nestedValidators` traversal terminates — any call-depth bound of at least
the number of validators yields the same result — and returns exactly the
set of validators transitively connected to `v` (other than `v` itself). -/
theorem nestedValidators_graph_correct (G : BGraph V I) [Fintype V]
    (fuel : Nat) (hfuel : Fintype.card V ≤ fuel) (v : V) :
    (∀ w, w ∈ nestedValidators G fuel v ↔
        (w ≠ v ∧ Relation.TransGen (StepRel G) v w)) ∧
      (∀ fuel2, Fintype.card V ≤ fuel2 →
        nestedValidators G fuel2 v = nestedValidators G fuel v) := by
  have hmem : ∀ fuel0, Fintype.card V ≤ fuel0 → ∀ w,
      w ∈ nestedValidators G fuel0 v ↔
        (w ≠ v ∧ Relation.TransGen (StepRel G) v w) := by
    intro fuel0 h0 w
    unfold nestedValidators
    rw [Finset.mem_erase, collect_mem_iff G fuel0 h0 v w]
  refine ⟨hmem fuel hfuel, fun fuel2 h2 => Finset.ext fun w => ?_⟩
  rw [hmem fuel2 h2 w, hmem fuel hfuel w]

/-- The claim's cyclic scenario: two validators (0 and 1) sharing the two
inputs 0 and 1; each input back-references both validators, so the
traversal graph is a cycle. -/
def cycleGraph : BGraph (Fin 2) (Fin 2) where
  inputsOf := fun _ => [0, 1]
  validatorsOf := fun _ => [0, 1]

/-- Witness for C4 on the cyclic two-validator scenario: with fuel
`|V| = 2`, the traversal of validator 0 terminates and its result contains
exactly the other validator, 1. -/
theorem nestedValidators_graph_correct_witness :
    Fintype.card (Fin 2) ≤ 2 ∧
      ((1 : Fin 2) ∈ nestedValidators cycleGraph 2 0 ↔
        ((1 : Fin 2) ≠ 0 ∧ Relation.TransGen (StepRel cycleGraph) 0 1)) ∧
      (1 : Fin 2) ∈ nestedValidators cycleGraph 2 0 :=
  ⟨by decide,
    (nestedValidators_graph_correct cycleGraph 2 (by decide) 0).1 1,
    ((nestedValidators_graph_correct cycleGraph 2 (by decide) 0).1 1).mpr
      ⟨by decide, Relation.TransGen.single ⟨0, by decide, by decide⟩⟩⟩

end NestedModel
